import Mathlib

/-!
Verification of the sliding-window rate limiter "the-shield".

Shallow embedding of the Go sources:
* `memory.go`    — in-memory sliding-window engine (`memoryLimiter`)
* `redis_lua.go` — distributed engine (`redisLimiter` and its Lua script)
* the shared contract file — `Limiter` interface and `Config`

Timestamps are milliseconds since epoch, modelled as `Int` (Go `int64`:
the values involved are far below `2^63`, so wrap-around plays no role).
Go slices of timestamps become `List Int`; the Redis sorted set becomes a
`Finset Int` (the script uses `now` as both member and score, so a key's
state is exactly a set of millisecond timestamps).
-/

namespace Shield

/-- `Config` from the shared contract file: `Limit` (Go `int`) and the time
window.  The engines only ever use `Window.Milliseconds()`, so the window is
embedded directly as its millisecond count. -/
structure Config where
  limit : Int
  windowMs : Int

/-- Model of Go's `context.Context` as it crosses the `Allow`/`Close`
boundary: the only observable the code ever reads from it is `ctx.Err()`. -/
structure Context where
  err : Option String

/-- The memory engine's `store map[string][]int64`: identifier to ascending
timestamp slice; `none` models a key that is absent from the map. -/
abbrev Store : Type := String → Option (List Int)

/-- Go map assignment `m.store[identifier] = v`. -/
def storeUpdate (store : Store) (identifier : String) (v : List Int) : Store :=
  fun k => if k = identifier then some v else store k

/-- The prune loop of `memoryLimiter.Allow` (memory.go lines 52-62):
`validIdx` is set to the first index whose timestamp is `> boundary`
(the loop breaks there); if the loop runs to the end without breaking,
`validIdx` is set to `len(timestamps)`; an empty slice leaves it `0`.
`List.findIdx` returns exactly that index (and `0 = length` on `[]`). -/
def findValidIdx (boundary : Int) (timestamps : List Int) : Nat :=
  timestamps.findIdx (fun t => decide (boundary < t))

/-- The slicing step of `memoryLimiter.Allow` (memory.go lines 64-71):
`if validIdx > 0 { if validIdx >= len { ts = [] } else { ts = ts[validIdx:] } }`. -/
def memPrune (boundary : Int) (timestamps : List Int) : List Int :=
  let validIdx := findValidIdx boundary timestamps
  if validIdx > 0 then
    if validIdx ≥ timestamps.length then [] else timestamps.drop validIdx
  else timestamps

/-- Core of `memoryLimiter.Allow` (memory.go lines 40-85) acting on one
identifier's timestamp slice: prune, then decide.  Returns
`(allowed, remaining, updated slice)`; the Go code stores the returned slice
back into the map in both branches. -/
def memStep (cfg : Config) (now : Int) (timestamps : List Int) : Bool × Int × List Int :=
  let pruned := memPrune (now - cfg.windowMs) timestamps
  if (pruned.length : Int) < cfg.limit then
    (true, cfg.limit - ((pruned.length : Int) + 1), pruned ++ [now])
  else
    (false, 0, pruned)

/-- `memoryLimiter.Allow` (memory.go lines 36-86): reads the identifier's
slice (empty when absent), runs the prune/decide step, writes the resulting
slice back into the map, and returns `(allowed, remaining, error)` with the
error always `nil`.  The `ctx` argument is never used by the Go body. -/
def memoryAllow (_ctx : Context) (cfg : Config) (now : Int) (store : Store)
    (identifier : String) : (Bool × Int × Option String) × Store :=
  let timestamps := (store identifier).getD []
  let r := memStep cfg now timestamps
  ((r.1, r.2.1, none), storeUpdate store identifier r.2.2)

/-- One tick of `memoryLimiter.cleanupWorker` (memory.go lines 117-126):
deletes every identifier whose slice is empty or whose newest timestamp is
older than `now - window`. -/
def cleanupPass (cfg : Config) (now : Int) (store : Store) : Store :=
  fun id =>
    match store id with
    | none => none
    | some timestamps =>
      match timestamps.getLast? with
      | none => none
      | some newest => if newest < now - cfg.windowMs then none else some timestamps

/-- Run a sequence of memory-engine `Allow` calls for one identifier (the map
is keyed by identifier, so a single slice is the whole per-identifier state);
collects each call's `(allowed, remaining)` outcome. -/
def memRunResults (cfg : Config) : List Int → List Int → List (Bool × Int)
  | _, [] => []
  | ts, now :: rest =>
    let r := memStep cfg now ts
    (r.1, r.2.1) :: memRunResults cfg r.2.2 rest

/-- Run a sequence of memory-engine `Allow` calls for one identifier and
collect the timestamps (`now` values) of the calls that returned
`allowed = true`, one entry per allowed call. -/
def memAllowedTimes (cfg : Config) : List Int → List Int → List Int
  | _, [] => []
  | ts, now :: rest =>
    let r := memStep cfg now ts
    if r.1 then now :: memAllowedTimes cfg r.2.2 rest
    else memAllowedTimes cfg r.2.2 rest

/-- One Redis key's state as the script sees it: the sorted-set members
(member string = score = a millisecond timestamp, since the script always
calls `ZADD key now now`) and the key's pending time-to-live. -/
structure ZSet where
  members : Finset Int
  ttlMs : Option Int

/-- Redis `ZREMRANGEBYSCORE key lo hi`: removes every member whose score lies
in the closed interval `[lo, hi]`; returns the remaining member set. -/
def zremRangeByScore (members : Finset Int) (lo hi : Int) : Finset Int :=
  members.filter (fun t => ¬(lo ≤ t ∧ t ≤ hi))

/-- The Lua script `slidingWindowLua` (redis_lua.go lines 16-38), executed
atomically by Redis:
`ZREMRANGEBYSCORE key 0 (now - window)` removes every member with score in
the closed interval `[0, now - window]`; `ZCARD` counts the survivors; if
the count is below the limit the script adds a member scored `now`, sets the
key's TTL to `window` via `PEXPIRE`, and returns `{1, limit - count - 1}`;
otherwise it returns `{0, 0}` (the removal is still persisted). -/
def slidingWindowScript (key : ZSet) (now window limit : Int) : (Int × Int) × ZSet :=
  let clearBefore := now - window
  let afterRemove := zremRangeByScore key.members 0 clearBefore
  let currentCount : Int := (afterRemove.card : Int)
  if currentCount < limit then
    ((1, limit - currentCount - 1), { members := insert now afterRemove, ttlMs := some window })
  else
    ((0, 0), { members := afterRemove, ttlMs := key.ttlMs })

/-- `redisLimiter.Allow` (redis_lua.go lines 56-72): runs the script with
`(key, now, windowMs, limit)`.  A transport/execution failure of
`script.Run(...).Result()` is modelled by the `transportErr` input: when it
is `some e` the call returns `(false, 0, e)` and, the remote operation being
atomic, the key is untouched; otherwise the script's two-element reply is
translated by `allowed := res[0] == 1`, `remaining := int(res[1])`. -/
def redisAllow (transportErr : Option String) (cfg : Config) (now : Int) (key : ZSet) :
    (Bool × Int × Option String) × ZSet :=
  match transportErr with
  | some e => ((false, 0, some e), key)
  | none =>
    let r := slidingWindowScript key now cfg.windowMs cfg.limit
    ((r.1.1 == 1, r.1.2, none), r.2)

/-- Run a sequence of distributed-engine `Allow` calls against one key
(no transport failures) and collect each call's `(allowed, remaining)`. -/
def redisRunResults (cfg : Config) : ZSet → List Int → List (Bool × Int)
  | _, [] => []
  | key, now :: rest =>
    let r := slidingWindowScript key now cfg.windowMs cfg.limit
    (r.1.1 == 1, r.1.2) :: redisRunResults cfg r.2 rest

/-- Run a sequence of distributed-engine `Allow` calls against one key and
collect the timestamps of the calls that were allowed, one per call. -/
def redisAllowedTimes (cfg : Config) : ZSet → List Int → List Int
  | _, [] => []
  | key, now :: rest =>
    let r := slidingWindowScript key now cfg.windowMs cfg.limit
    if r.1.1 == 1 then now :: redisAllowedTimes cfg r.2 rest
    else redisAllowedTimes cfg r.2 rest

/-- Spec-side restatement of the memory-engine step, written from the words
of the specification (§4.2 steps 3-4): drop the longest prefix of timestamps
that are `≤ boundary`; if the retained length is below the limit, append
`now`, store the updated sequence and return `(true, limit - len)`;
otherwise store the pruned (but not appended) sequence and return
`(false, 0)`.  Compared against the source-side `memStep` in claim C2. -/
def memStepSpec (cfg : Config) (now : Int) (l : List Int) : Bool × Int × List Int :=
  let boundary := now - cfg.windowMs
  let retained := l.dropWhile (fun t => decide (t ≤ boundary))
  if (retained.length : Int) < cfg.limit then
    (true, cfg.limit - ((retained ++ [now]).length : Int), retained ++ [now])
  else
    (false, 0, retained)

/-- Spec-side restatement of the atomic remote operation, written from the
words of claim C3 / specification §4.3: remove all members with score in
`[0, now - windowMillis]` (kept members are those with score `< 0` or
`> now - windowMillis`); count the rest; if the count is below the limit,
add a member scored `now`, set the TTL to `windowMillis` and return
`(1, limit - count - 1)`; otherwise return `(0, 0)` with the prune still
persisted.  Compared against the source-side `slidingWindowScript`. -/
def atomicOpSpec (key : ZSet) (now windowMillis limit : Int) : (Int × Int) × ZSet :=
  let pruned := key.members.filter (fun t => t < 0 ∨ now - windowMillis < t)
  let count : Int := (pruned.card : Int)
  if count < limit then
    ((1, limit - count - 1), { members := insert now pruned, ttlMs := some windowMillis })
  else
    ((0, 0), { members := pruned, ttlMs := key.ttlMs })

/-- The only piece of `memoryLimiter` state that `Close` touches:
whether `stopCh` has already been closed. -/
structure MemCloseState where
  stopChClosed : Bool

/-- `memoryLimiter.Close` (memory.go lines 89-102).  It executes
`close(m.stopCh)` first — the Go runtime panics with
"close of closed channel" if `Close` was already called — and then selects
between the worker's exit (`wg.Wait`) and the caller's deadline
(`ctx.Done()`).  Which of the two fires first is a scheduling outcome and is
passed in as `workerExitsFirst`; the deadline branch returns `ctx.Err()`.
A panic is modelled as `Except.error`. -/
def memoryClose (st : MemCloseState) (workerExitsFirst : Bool) (ctxErr : String) :
    Except String (Option String × MemCloseState) :=
  if st.stopChClosed then
    Except.error "close of closed channel"
  else if workerExitsFirst then
    Except.ok (none, { stopChClosed := true })
  else
    Except.ok (some ctxErr, { stopChClosed := true })

/-- `redisLimiter.Close` (redis_lua.go lines 75-78): a body-free success. -/
def redisClose (_ctx : Context) : Option String :=
  none

/-- Helper predicate for window exactness: at every position `i` of the list
`L` of allowed-call timestamps, strictly fewer than `N` of the earlier
allowed calls fall inside the window ending at `L[i]`.  This is exactly what
each engine's admission check enforces at the moment of an allowed call. -/
def prefixBound (W N : Int) (L : List Int) : Prop :=
  ∀ i, (h : i < L.length) →
    (((L.take i).countP (fun t => decide (L[i] - W < t)) : Nat) : Int) < N

/-! ### Characterising the memory engine's prune loop -/

/-- The slicing step reduces to `List.drop` at the loop's index. -/
theorem memPrune_eq_drop (b : Int) (ts : List Int) :
    memPrune b ts = ts.drop (findValidIdx b ts) := by
  unfold memPrune
  by_cases h0 : findValidIdx b ts > 0
  · by_cases hlen : findValidIdx b ts ≥ ts.length
    · simp [h0, hlen, (List.drop_eq_nil_of_le hlen).symm]
    · simp [h0, hlen]
  · have hz : findValidIdx b ts = 0 := by omega
    simp [h0, hz]

/-- Dropping up to the first index satisfying `p` is `dropWhile` of `¬ p`. -/
theorem drop_findIdx_eq_dropWhile (p : Int → Bool) (l : List Int) :
    l.drop (l.findIdx p) = l.dropWhile (fun a => !p a) := by
  induction l with
  | nil => rfl
  | cons a l ih =>
    by_cases h : p a
    · simp [List.findIdx_cons, List.dropWhile_cons, h]
    · simp only [List.findIdx_cons, List.dropWhile_cons, h]
      simpa using ih

/-- The whole prune phase drops exactly the longest prefix of timestamps
that are `≤ boundary` — for every input slice, sorted or not. -/
theorem memPrune_eq_dropWhile (b : Int) (ts : List Int) :
    memPrune b ts = ts.dropWhile (fun t => decide (t ≤ b)) := by
  rw [memPrune_eq_drop, findValidIdx, drop_findIdx_eq_dropWhile]
  congr 1
  funext t
  rw [← decide_not]
  exact decide_eq_decide.mpr not_lt

/-- On an ascending slice the prune keeps exactly the in-window timestamps. -/
theorem memPrune_sorted (b : Int) :
    ∀ (ts : List Int), ts.Sorted (· ≤ ·) →
      memPrune b ts = ts.filter (fun t => decide (b < t))
  | [], _ => by simp [memPrune, findValidIdx]
  | a :: l, h => by
    rcases List.sorted_cons.mp h with ⟨ha, hl⟩
    rw [memPrune_eq_dropWhile] at *
    by_cases hab : a ≤ b
    · have h1 : decide (a ≤ b) = true := decide_eq_true hab
      have h2 : decide (b < a) = false := decide_eq_false (not_lt.mpr hab)
      rw [List.dropWhile_cons, List.filter_cons]
      simp only [h1, h2, Bool.false_eq_true, if_true, if_false]
      rw [← memPrune_eq_dropWhile]
      exact memPrune_sorted b l hl
    · have hba : b < a := not_le.mp hab
      have h1 : decide (a ≤ b) = false := decide_eq_false hab
      have h2 : decide (b < a) = true := decide_eq_true hba
      rw [List.dropWhile_cons, List.filter_cons]
      simp only [h1, h2, Bool.false_eq_true, if_true, if_false]
      have : l.filter (fun t => decide (b < t)) = l :=
        List.filter_eq_self.mpr fun x hx => decide_eq_true (lt_of_lt_of_le hba (ha x hx))
      rw [this]

/-- The source step and the spec-side step agree on every input slice. -/
theorem memStep_eq_memStepSpec (cfg : Config) (now : Int) (ts : List Int) :
    memStep cfg now ts = memStepSpec cfg now ts := by
  unfold memStep memStepSpec
  rw [memPrune_eq_dropWhile]
  simp only [List.length_append, List.length_singleton]
  by_cases h :
      (((ts.dropWhile (fun t => decide (t ≤ now - cfg.windowMs))).length : Int) < cfg.limit)
  · simp only [h, if_true, Prod.mk.injEq]
    refine ⟨trivial, ?_, trivial⟩
    push_cast
    ring
  · simp [h]

/-- Pruning never changes the number of in-window (valid) timestamps. -/
theorem countP_memPrune (b : Int) (ts : List Int) :
    (memPrune b ts).countP (fun t => decide (b < t)) =
      ts.countP (fun t => decide (b < t)) := by
  have hsplit := List.takeWhile_append_dropWhile (fun t => decide (t ≤ b)) ts
  rw [memPrune_eq_dropWhile]
  conv_rhs => rw [← hsplit]
  rw [List.countP_append]
  have hz : (ts.takeWhile (fun t => decide (t ≤ b))).countP (fun t => decide (b < t)) = 0 := by
    rw [List.countP_eq_zero]
    intro x hmem hdec
    have hp := List.mem_takeWhile_imp hmem
    simp only [decide_eq_true_eq] at hp hdec
    omega
  omega

/-- Pruning only removes entries; the stored slice is a sublist. -/
theorem memPrune_sublist (b : Int) (ts : List Int) :
    List.Sublist (memPrune b ts) ts := by
  rw [memPrune_eq_dropWhile]
  exact List.dropWhile_sublist _

/-! ### Step and run equations -/

theorem memStep_allowed {cfg : Config} {now : Int} {ts : List Int}
    (h : ((memPrune (now - cfg.windowMs) ts).length : Int) < cfg.limit) :
    memStep cfg now ts =
      (true, cfg.limit - (((memPrune (now - cfg.windowMs) ts).length : Int) + 1),
        memPrune (now - cfg.windowMs) ts ++ [now]) := by
  unfold memStep
  rw [if_pos h]

theorem memStep_blocked {cfg : Config} {now : Int} {ts : List Int}
    (h : ¬((memPrune (now - cfg.windowMs) ts).length : Int) < cfg.limit) :
    memStep cfg now ts = (false, 0, memPrune (now - cfg.windowMs) ts) := by
  unfold memStep
  rw [if_neg h]

theorem memAllowedTimes_cons_eq (cfg : Config) (ts : List Int) (now : Int) (rest : List Int) :
    memAllowedTimes cfg ts (now :: rest) =
      if (memStep cfg now ts).1 then now :: memAllowedTimes cfg (memStep cfg now ts).2.2 rest
      else memAllowedTimes cfg (memStep cfg now ts).2.2 rest := rfl

theorem memRunResults_cons_eq (cfg : Config) (ts : List Int) (now : Int) (rest : List Int) :
    memRunResults cfg ts (now :: rest) =
      ((memStep cfg now ts).1, (memStep cfg now ts).2.1) ::
        memRunResults cfg (memStep cfg now ts).2.2 rest := rfl

theorem redisAllowedTimes_cons_eq (cfg : Config) (key : ZSet) (now : Int) (rest : List Int) :
    redisAllowedTimes cfg key (now :: rest) =
      if (slidingWindowScript key now cfg.windowMs cfg.limit).1.1 == 1 then
        now :: redisAllowedTimes cfg (slidingWindowScript key now cfg.windowMs cfg.limit).2 rest
      else redisAllowedTimes cfg (slidingWindowScript key now cfg.windowMs cfg.limit).2 rest := rfl

theorem redisRunResults_cons_eq (cfg : Config) (key : ZSet) (now : Int) (rest : List Int) :
    redisRunResults cfg key (now :: rest) =
      ((slidingWindowScript key now cfg.windowMs cfg.limit).1.1 == 1,
        (slidingWindowScript key now cfg.windowMs cfg.limit).1.2) ::
        redisRunResults cfg (slidingWindowScript key now cfg.windowMs cfg.limit).2 rest := rfl

theorem script_allowed (key : ZSet) {now window limit : Int}
    (h : ((zremRangeByScore key.members 0 (now - window)).card : Int) < limit) :
    slidingWindowScript key now window limit =
      ((1, limit - ((zremRangeByScore key.members 0 (now - window)).card : Int) - 1),
        { members := insert now (zremRangeByScore key.members 0 (now - window)),
          ttlMs := some window }) := by
  unfold slidingWindowScript
  rw [if_pos h]

theorem script_blocked (key : ZSet) {now window limit : Int}
    (h : ¬((zremRangeByScore key.members 0 (now - window)).card : Int) < limit) :
    slidingWindowScript key now window limit =
      ((0, 0), { members := zremRangeByScore key.members 0 (now - window),
                 ttlMs := key.ttlMs }) := by
  unfold slidingWindowScript
  rw [if_neg h]

/-! ### The per-call admission bound propagates to whole windows -/

theorem prefixBound_concat {W N : Int} {M : List Int} {x : Int}
    (hM : prefixBound W N M)
    (hx : ((M.countP (fun t => decide (x - W < t)) : Nat) : Int) < N) :
    prefixBound W N (M ++ [x]) := by
  intro i hi
  rw [List.length_append, List.length_singleton] at hi
  by_cases h : i < M.length
  · have ht : (M ++ [x]).take i = M.take i := List.take_append_of_le_length (Nat.le_of_lt h)
    simpa [ht, List.getElem_append_left h] using hM i h
  · have hieq : i = M.length := by omega
    subst hieq
    have ht : (M ++ [x]).take M.length = M := List.take_left M [x]
    simpa [ht] using hx

theorem prefixBound_concat_elim {W N : Int} {M : List Int} {x : Int}
    (h : prefixBound W N (M ++ [x])) :
    prefixBound W N M ∧ ((M.countP (fun t => decide (x - W < t)) : Nat) : Int) < N := by
  constructor
  · intro i hi
    have h2 := h i (by simp; omega)
    have ht : (M ++ [x]).take i = M.take i := List.take_append_of_le_length (Nat.le_of_lt hi)
    simpa [ht, List.getElem_append_left hi] using h2
  · have h2 := h M.length (by simp)
    have ht : (M ++ [x]).take M.length = M := List.take_left M [x]
    simpa [ht] using h2

/-- If, at the moment of each allowed call, fewer than `N` earlier allowed
calls lie inside the window ending at that call, then no half-open window
`(a, a + W]` holds more than `N` allowed calls. -/
theorem countP_window_le {W N : Int} (hN : 0 ≤ N) (a : Int) :
    ∀ (L : List Int), prefixBound W N L →
      ((L.countP (fun t => decide (a < t ∧ t ≤ a + W)) : Nat) : Int) ≤ N := by
  intro L
  induction L using List.reverseRecOn with
  | nil => intro _; simpa using hN
  | append_singleton M s IH =>
    intro hL
    rcases prefixBound_concat_elim hL with ⟨hM, hs⟩
    rw [List.countP_append]
    by_cases hwin : a < s ∧ s ≤ a + W
    · have h1 : M.countP (fun t => decide (a < t ∧ t ≤ a + W)) ≤
          M.countP (fun t => decide (s - W < t)) := by
        apply List.countP_mono_left
        intro x _ hx
        simp only [decide_eq_true_eq] at hx ⊢
        omega

      have h2 : [s].countP (fun t => decide (a < t ∧ t ≤ a + W)) = 1 := by
        simp [List.countP_cons, hwin]
      rw [h2]
      omega
    · have h2 : [s].countP (fun t => decide (a < t ∧ t ≤ a + W)) = 0 := by
        simp [List.countP_cons, hwin]
      have h3 := IH hM
      rw [h2]
      omega

theorem memAllowedTimes_cons_allowed {cfg : Config} {ts : List Int} {now : Int}
    {rest : List Int} (h : (memStep cfg now ts).1 = true) :
    memAllowedTimes cfg ts (now :: rest) =
      now :: memAllowedTimes cfg (memStep cfg now ts).2.2 rest := by
  rw [memAllowedTimes_cons_eq, if_pos h]

theorem memAllowedTimes_cons_blocked {cfg : Config} {ts : List Int} {now : Int}
    {rest : List Int} (h : (memStep cfg now ts).1 = false) :
    memAllowedTimes cfg ts (now :: rest) =
      memAllowedTimes cfg (memStep cfg now ts).2.2 rest := by
  rw [memAllowedTimes_cons_eq, if_neg (by simp [h])]

/-- Run invariant for the memory engine: with non-decreasing call timestamps
the stored slice is exactly the in-window suffix of the allowed-call log, and
every allowed call extends the log while preserving the per-call admission
bound `prefixBound`. -/
theorem memAllowedTimes_prefixBound (cfg : Config) (hW : 0 < cfg.windowMs) :
    ∀ (nows : List Int), nows.Sorted (· ≤ ·) →
    ∀ (A : List Int) (m : Int),
      A.Sorted (· ≤ ·) →
      (∀ x ∈ A, x ≤ m) →
      (∀ x ∈ nows, m ≤ x) →
      prefixBound cfg.windowMs cfg.limit A →
      prefixBound cfg.windowMs cfg.limit
        (A ++ memAllowedTimes cfg (A.filter (fun t => decide (m - cfg.windowMs < t))) nows) := by
  intro nows
  induction nows with
  | nil =>
    intro _ A m _ _ _ hP
    simpa [memAllowedTimes] using hP
  | cons now rest IH =>
    intro hsort A m hAsort hAle hmle hP
    rcases List.sorted_cons.mp hsort with ⟨hnowrest, hrest⟩
    have hmnow : m ≤ now := hmle now (List.mem_cons_self _ _)
    have htsSorted : (A.filter (fun t => decide (m - cfg.windowMs < t))).Sorted (· ≤ ·) :=
      hAsort.filter _
    have hprune : memPrune (now - cfg.windowMs)
        (A.filter (fun t => decide (m - cfg.windowMs < t))) =
        A.filter (fun t => decide (now - cfg.windowMs < t)) := by
      rw [memPrune_sorted _ _ htsSorted, List.filter_filter]
      apply List.filter_congr
      intro x _
      by_cases hx : now - cfg.windowMs < x
      · have hmx : m - cfg.windowMs < x := by omega
        simp [hx, hmx]
      · simp [hx]
    by_cases hallow :
        ((memPrune (now - cfg.windowMs)
            (A.filter (fun t => decide (m - cfg.windowMs < t)))).length : Int) < cfg.limit
    · have h1 : (memStep cfg now (A.filter (fun t => decide (m - cfg.windowMs < t)))).1 = true := by
        simp [memStep_allowed hallow]
      have h2 : (memStep cfg now (A.filter (fun t => decide (m - cfg.windowMs < t)))).2.2 =
          (A ++ [now]).filter (fun t => decide (now - cfg.windowMs < t)) := by
        rw [memStep_allowed hallow]
        show memPrune (now - cfg.windowMs) (A.filter (fun t => decide (m - cfg.windowMs < t))) ++
            [now] = (A ++ [now]).filter (fun t => decide (now - cfg.windowMs < t))
        rw [hprune, List.filter_append]
        congr 1
        simp [show now - cfg.windowMs < now by omega]
      have hcount :
          ((A.countP (fun t => decide (now - cfg.windowMs < t)) : Nat) : Int) < cfg.limit := by
        rw [List.countP_eq_length_filter]
        rw [hprune] at hallow
        exact_mod_cast hallow
      have hA'sorted : (A ++ [now]).Sorted (· ≤ ·) := by
        rw [List.Sorted, List.pairwise_append]
        refine ⟨hAsort, List.pairwise_singleton _ _, ?_⟩
        intro x hx y hy
        rw [List.mem_singleton] at hy
        subst hy
        exact le_trans (hAle x hx) hmnow
      have hIH := IH hrest (A ++ [now]) now hA'sorted
        (by
          intro x hx
          rcases List.mem_append.mp hx with h | h
          · exact le_trans (hAle x h) hmnow
          · rw [List.mem_singleton] at h
            omega)
        hnowrest
        (prefixBound_concat hP hcount)
      rw [memAllowedTimes_cons_allowed h1, h2]
      have hassoc : A ++ now :: memAllowedTimes cfg
            ((A ++ [now]).filter (fun t => decide (now - cfg.windowMs < t))) rest =
          (A ++ [now]) ++ memAllowedTimes cfg
            ((A ++ [now]).filter (fun t => decide (now - cfg.windowMs < t))) rest := by
        simp
      rw [hassoc]
      exact hIH
    · have h1 : (memStep cfg now (A.filter (fun t => decide (m - cfg.windowMs < t)))).1 = false := by
        simp [memStep_blocked hallow]
      have h2 : (memStep cfg now (A.filter (fun t => decide (m - cfg.windowMs < t)))).2.2 =
          A.filter (fun t => decide (now - cfg.windowMs < t)) := by
        rw [memStep_blocked hallow]
        exact hprune
      rw [memAllowedTimes_cons_blocked h1, h2]
      exact IH hrest A now hAsort (fun x hx => le_trans (hAle x hx) hmnow) hnowrest hP

theorem redisAllowedTimes_cons_allowed {cfg : Config} {key : ZSet} {now : Int}
    {rest : List Int} (h : ((slidingWindowScript key now cfg.windowMs cfg.limit).1.1 == 1) = true) :
    redisAllowedTimes cfg key (now :: rest) =
      now :: redisAllowedTimes cfg (slidingWindowScript key now cfg.windowMs cfg.limit).2 rest := by
  rw [redisAllowedTimes_cons_eq, if_pos h]

theorem redisAllowedTimes_cons_blocked {cfg : Config} {key : ZSet} {now : Int}
    {rest : List Int} (h : ((slidingWindowScript key now cfg.windowMs cfg.limit).1.1 == 1) = false) :
    redisAllowedTimes cfg key (now :: rest) =
      redisAllowedTimes cfg (slidingWindowScript key now cfg.windowMs cfg.limit).2 rest := by
  rw [redisAllowedTimes_cons_eq, if_neg (by simp [h])]

/-- Run invariant for the distributed engine: with strictly increasing call
timestamps, every already-allowed in-window timestamp is still a member of
the key's sorted set, so each allowed call preserves the per-call admission
bound `prefixBound`. -/
theorem redisAllowedTimes_prefixBound (cfg : Config) :
    ∀ (nows : List Int), nows.Sorted (· < ·) →
    ∀ (A : List Int) (m : Int) (key : ZSet),
      A.Sorted (· < ·) →
      (∀ x ∈ A, x ≤ m) →
      (∀ x ∈ nows, m < x) →
      (∀ t ∈ A, m - cfg.windowMs < t → t ∈ key.members) →
      prefixBound cfg.windowMs cfg.limit A →
      prefixBound cfg.windowMs cfg.limit (A ++ redisAllowedTimes cfg key nows) := by
  intro nows
  induction nows with
  | nil =>
    intro _ A m key _ _ _ _ hP
    simpa [redisAllowedTimes] using hP
  | cons now rest IH =>
    intro hsort A m key hAsort hAle hmlt hinv hP
    rcases List.sorted_cons.mp hsort with ⟨hnowrest, hrest⟩
    have hmnow : m < now := hmlt now (List.mem_cons_self _ _)
    have hS1 : ∀ t ∈ A, now - cfg.windowMs < t →
        t ∈ zremRangeByScore key.members 0 (now - cfg.windowMs) := by
      intro t ht htw
      have h1 : t ∈ key.members := hinv t ht (by omega)
      refine Finset.mem_filter.mpr ⟨h1, ?_⟩
      intro hc
      omega
    have hAnodup : A.Nodup := hAsort.nodup
    by_cases hallow :
        ((zremRangeByScore key.members 0 (now - cfg.windowMs)).card : Int) < cfg.limit
    · have h1 : ((slidingWindowScript key now cfg.windowMs cfg.limit).1.1 == 1) = true := by
        simp [script_allowed key hallow]
      have h2 : (slidingWindowScript key now cfg.windowMs cfg.limit).2 =
          { members := insert now (zremRangeByScore key.members 0 (now - cfg.windowMs)),
            ttlMs := some cfg.windowMs } := by
        rw [script_allowed key hallow]
      have hcount :
          ((A.countP (fun t => decide (now - cfg.windowMs < t)) : Nat) : Int) < cfg.limit := by
        have hfn : (A.filter (fun t => decide (now - cfg.windowMs < t))).Nodup :=
          hAnodup.filter _
        have hsub : (A.filter (fun t => decide (now - cfg.windowMs < t))).toFinset ⊆
            zremRangeByScore key.members 0 (now - cfg.windowMs) := by
          intro x hx
          rw [List.mem_toFinset, List.mem_filter] at hx
          exact hS1 x hx.1 (of_decide_eq_true hx.2)
        have hle : (A.filter (fun t => decide (now - cfg.windowMs < t))).length ≤
            (zremRangeByScore key.members 0 (now - cfg.windowMs)).card := by
          rw [← List.toFinset_card_of_nodup hfn]
          exact Finset.card_le_card hsub
        rw [List.countP_eq_length_filter]
        omega
      have hA'sorted : (A ++ [now]).Sorted (· < ·) := by
        rw [List.Sorted, List.pairwise_append]
        refine ⟨hAsort, List.pairwise_singleton _ _, ?_⟩
        intro x hx y hy
        rw [List.mem_singleton] at hy
        subst hy
        exact lt_of_le_of_lt (hAle x hx) hmnow
      have hIH := IH hrest (A ++ [now]) now
        { members := insert now (zremRangeByScore key.members 0 (now - cfg.windowMs)),
          ttlMs := some cfg.windowMs }
        hA'sorted
        (by
          intro x hx
          rcases List.mem_append.mp hx with h | h
          · exact le_of_lt (lt_of_le_of_lt (hAle x h) hmnow)
          · rw [List.mem_singleton] at h
            omega)
        hnowrest
        (by
          intro t ht htw
          rcases List.mem_append.mp ht with h | h
          · exact Finset.mem_insert_of_mem (hS1 t h htw)
          · rw [List.mem_singleton] at h
            subst h
            exact Finset.mem_insert_self _ _)
        (prefixBound_concat hP hcount)
      rw [redisAllowedTimes_cons_allowed h1, h2]
      have hassoc : A ++ now :: redisAllowedTimes cfg
            { members := insert now (zremRangeByScore key.members 0 (now - cfg.windowMs)),
              ttlMs := some cfg.windowMs } rest =
          (A ++ [now]) ++ redisAllowedTimes cfg
            { members := insert now (zremRangeByScore key.members 0 (now - cfg.windowMs)),
              ttlMs := some cfg.windowMs } rest := by
        simp
      rw [hassoc]
      exact hIH
    · have h1 : ((slidingWindowScript key now cfg.windowMs cfg.limit).1.1 == 1) = false := by
        simp [script_blocked key hallow]
      have h2 : (slidingWindowScript key now cfg.windowMs cfg.limit).2 =
          { members := zremRangeByScore key.members 0 (now - cfg.windowMs),
            ttlMs := key.ttlMs } := by
        rw [script_blocked key hallow]
      rw [redisAllowedTimes_cons_blocked h1, h2]
      exact IH hrest A now
        { members := zremRangeByScore key.members 0 (now - cfg.windowMs), ttlMs := key.ttlMs }
        hAsort
        (fun x hx => le_of_lt (lt_of_le_of_lt (hAle x hx) hmnow))
        hnowrest
        (fun t ht htw => hS1 t ht htw)
        hP

/-! ### Same-instant bursts (claim C5) -/

theorem memPrune_replicate {b now : Int} (h : b < now) (j : Nat) :
    memPrune b (List.replicate j now) = List.replicate j now := by
  rw [memPrune_eq_dropWhile]
  cases j with
  | zero => rfl
  | succ n =>
    rw [List.replicate_succ, List.dropWhile_cons]
    simp [not_le.mpr h]

/-- Running a burst of `k` same-instant calls on the memory engine, with `j`
copies of that instant already stored: the i-th call is allowed with
remaining `limit - (j+i) - 1` while `j + i < limit`, blocked afterwards. -/
theorem memRunResults_replicate (cfg : Config) (hW : 0 < cfg.windowMs) (now : Int) :
    ∀ (k j : Nat),
      memRunResults cfg (List.replicate j now) (List.replicate k now) =
        (List.range k).map (fun i =>
          if ((j + i : Nat) : Int) < cfg.limit then
            (true, cfg.limit - ((j + i : Nat) : Int) - 1)
          else (false, 0)) := by
  intro k
  induction k with
  | zero => intro j; rfl
  | succ n IH =>
    intro j
    rw [List.replicate_succ, memRunResults_cons_eq]
    have hpr : memPrune (now - cfg.windowMs) (List.replicate j now) = List.replicate j now :=
      memPrune_replicate (by omega) j
    rw [List.range_succ_eq_map, List.map_cons, List.map_map]
    by_cases hj : ((j : Nat) : Int) < cfg.limit
    · have hcond :
          ((memPrune (now - cfg.windowMs) (List.replicate j now)).length : Int) < cfg.limit := by
        rw [hpr, List.length_replicate]
        exact_mod_cast hj
      rw [memStep_allowed hcond]
      simp only [hpr, List.length_replicate]
      rw [← List.replicate_succ', IH (j + 1)]
      refine congrArg₂ List.cons ?_ ?_
      · simp only [Nat.add_zero]
        rw [if_pos hj]
        refine congrArg (Prod.mk true) ?_
        ring
      · apply List.map_congr_left
        intro i _
        have harith : (j + 1) + i = j + Nat.succ i := by omega
        simp [harith]
    · have hcond :
          ¬((memPrune (now - cfg.windowMs) (List.replicate j now)).length : Int) < cfg.limit := by
        rw [hpr, List.length_replicate]
        exact_mod_cast hj
      rw [memStep_blocked hcond]
      simp only [hpr]
      rw [IH j]
      refine congrArg₂ List.cons ?_ ?_
      · simp only [Nat.add_zero]
        rw [if_neg hj]
      · apply List.map_congr_left
        intro i _
        have h1 : ¬((j + i : Nat) : Int) < cfg.limit := by push_cast; push_cast at hj; omega
        have h2 : ¬((j + Nat.succ i : Nat) : Int) < cfg.limit := by
          push_cast
          push_cast at hj
          omega
        push_cast at h1 h2
        simp [h1, h2]

/-- Running calls at strictly increasing instants, all within one window of
each other and of the `done` instants already recorded at the key: nothing is
pruned, so the i-th call sees `done.length + i` members and the outcomes
decrease `remaining` by one per allowed call until the limit is reached. -/
theorem redisRunResults_no_prune (cfg : Config) :
    ∀ (nows : List Int) (done : List Int) (ttl : Option Int),
      done.Nodup →
      (∀ x ∈ done, ∀ y ∈ nows, x < y ∧ y - cfg.windowMs < x) →
      nows.Sorted (· < ·) →
      (∀ x ∈ nows, ∀ y ∈ nows, y - cfg.windowMs < x) →
      redisRunResults cfg { members := done.toFinset, ttlMs := ttl } nows =
        (List.range nows.length).map (fun i =>
          if ((done.length + i : Nat) : Int) < cfg.limit then
            (true, cfg.limit - ((done.length + i : Nat) : Int) - 1)
          else (false, 0)) := by
  intro nows
  induction nows with
  | nil => intro done ttl _ _ _ _; rfl
  | cons now rest IH =>
    intro done ttl hnodup hdone hsort hspan
    rcases List.sorted_cons.mp hsort with ⟨hnowrest, hrest⟩
    have hkeep : zremRangeByScore done.toFinset 0 (now - cfg.windowMs) = done.toFinset := by
      apply Finset.filter_true_of_mem
      intro x hx
      rw [List.mem_toFinset] at hx
      have hx2 := (hdone x hx now (List.mem_cons_self _ _)).2
      intro hc
      omega
    have hcard : (zremRangeByScore done.toFinset 0 (now - cfg.windowMs)).card = done.length := by
      rw [hkeep, List.toFinset_card_of_nodup hnodup]
    rw [redisRunResults_cons_eq]
    rw [List.length_cons, List.range_succ_eq_map, List.map_cons, List.map_map]
    by_cases hj : ((done.length : Nat) : Int) < cfg.limit
    · have hcond :
          ((zremRangeByScore done.toFinset 0 (now - cfg.windowMs)).card : Int) < cfg.limit := by
        rw [hcard]
        exact_mod_cast hj
      rw [script_allowed { members := done.toFinset, ttlMs := ttl } hcond]
      have hins : insert now (zremRangeByScore done.toFinset 0 (now - cfg.windowMs)) =
          (now :: done).toFinset := by
        rw [hkeep, List.toFinset_cons]
      have hnodup' : (now :: done).Nodup := by
        rw [List.nodup_cons]
        refine ⟨?_, hnodup⟩
        intro hmem
        have := (hdone now hmem now (List.mem_cons_self _ _)).1
        omega
      have hdone' : ∀ x ∈ now :: done, ∀ y ∈ rest, x < y ∧ y - cfg.windowMs < x := by
        intro x hx y hy
        rcases List.mem_cons.mp hx with h | h
        · have h1 : now < y := hnowrest y hy
          have h2 : y - cfg.windowMs < now :=
            hspan now (List.mem_cons_self _ _) y (List.mem_cons_of_mem _ hy)
          constructor <;> omega
        · exact ⟨lt_trans (hdone x h now (List.mem_cons_self _ _)).1 (hnowrest y hy),
            (hdone x h y (List.mem_cons_of_mem _ hy)).2⟩
      have hspan' : ∀ x ∈ rest, ∀ y ∈ rest, y - cfg.windowMs < x := fun x hx y hy =>
        hspan x (List.mem_cons_of_mem _ hx) y (List.mem_cons_of_mem _ hy)
      have hIH := IH (now :: done) (some cfg.windowMs) hnodup' hdone' hrest hspan'
      rw [List.length_cons] at hIH
      simp only [hcard, hins]
      rw [hIH]
      refine congrArg₂ List.cons ?_ ?_
      · simp [hj]
      · apply List.map_congr_left
        intro i _
        have harith : (done.length + 1) + i = done.length + Nat.succ i := by omega
        simp [harith]
    · have hcond :
          ¬((zremRangeByScore done.toFinset 0 (now - cfg.windowMs)).card : Int) < cfg.limit := by
        rw [hcard]
        exact_mod_cast hj
      rw [script_blocked { members := done.toFinset, ttlMs := ttl } hcond]
      simp only [hkeep]
      have hIH := IH done ttl hnodup
        (fun x hx y hy => hdone x hx y (List.mem_cons_of_mem _ hy)) hrest
        (fun x hx y hy =>
          hspan x (List.mem_cons_of_mem _ hx) y (List.mem_cons_of_mem _ hy))
      rw [hIH]
      refine congrArg₂ List.cons ?_ ?_
      · have hbeq : ((0 : Int) == 1) = false := by decide
        rw [hbeq]
        simp only [Nat.add_zero]
        rw [if_neg hj]
      · apply List.map_congr_left
        intro i _
        have h1 : ¬((done.length + i : Nat) : Int) < cfg.limit := by
          push_cast
          push_cast at hj
          omega
        have h2 : ¬((done.length + Nat.succ i : Nat) : Int) < cfg.limit := by
          push_cast
          push_cast at hj
          omega
        push_cast at h1 h2
        simp [h1, h2]

/-! ## The claims -/

/-- C1, counterexample to the claim as stated: window exactness fails for
"every sequence of Allow calls".  Memory engine: wall-clock `now` values
`[1000, 1001, 1150, 1080]` (a backward clock step, which `time.Now()`
permits) with limit 2, window 100 produce three allowed calls whose
timestamps 1000, 1001, 1080 all lie in the window `(999, 1099]`.
Distributed engine: three calls in the same millisecond (limit 2) are all
allowed, because `ZADD key now now` coalesces duplicate members, so the
window `(999, 1099]` holds three allowed calls. -/
theorem c1_counterexample :
    2 < (((memAllowedTimes ⟨2, 100⟩ [] [1000, 1001, 1150, 1080]).countP
        (fun t => decide (999 < t ∧ t ≤ 999 + 100)) : Nat) : Int) ∧
    2 < (((redisAllowedTimes ⟨2, 100⟩ { members := ∅, ttlMs := none } [1000, 1000, 1000]).countP
        (fun t => decide (999 < t ∧ t ≤ 999 + 100)) : Nat) : Int) := by
  constructor <;> decide

/-- C1 (amended): window exactness holds under a monotone clock.  For every
configuration with `0 < window` and `0 ≤ limit` and every contiguous
half-open interval `(a, a + window]`: on the memory engine, any call
sequence with non-decreasing timestamps yields at most `limit` allowed calls
with timestamps in the interval; on the distributed engine the same holds
for strictly increasing timestamps (distinct milliseconds, so no member
coalescing). -/
theorem c1_window_exactness (cfg : Config) (hW : 0 < cfg.windowMs)
    (hN : 0 ≤ cfg.limit) (nows : List Int) (a : Int) :
    (nows.Sorted (· ≤ ·) →
      (((memAllowedTimes cfg [] nows).countP
          (fun t => decide (a < t ∧ t ≤ a + cfg.windowMs)) : Nat) : Int) ≤ cfg.limit) ∧
    (nows.Sorted (· < ·) →
      (((redisAllowedTimes cfg { members := ∅, ttlMs := none } nows).countP
          (fun t => decide (a < t ∧ t ≤ a + cfg.windowMs)) : Nat) : Int) ≤ cfg.limit) := by
  constructor
  · intro hsort
    apply countP_window_le hN a
    cases nows with
    | nil =>
      intro i hi
      exact absurd hi (by simp [memAllowedTimes])
    | cons n0 rest =>
      have h := memAllowedTimes_prefixBound cfg hW (n0 :: rest) hsort [] n0
        List.sorted_nil (by simp)
        (by
          intro x hx
          rcases List.mem_cons.mp hx with h | h
          · omega
          · exact (List.sorted_cons.mp hsort).1 x h)
        (by intro i hi; exact absurd hi (by simp))
      simpa using h
  · intro hsort
    apply countP_window_le hN a
    cases nows with
    | nil =>
      intro i hi
      exact absurd hi (by simp [redisAllowedTimes])
    | cons n0 rest =>
      have h := redisAllowedTimes_prefixBound cfg (n0 :: rest) hsort [] (n0 - 1)
        { members := ∅, ttlMs := none }
        List.sorted_nil (by simp)
        (by
          intro x hx
          rcases List.mem_cons.mp hx with h | h
          · omega
          · have := (List.sorted_cons.mp hsort).1 x h
            omega)
        (by simp)
        (by intro i hi; exact absurd hi (by simp))
      simpa using h

/-- C1 witness: the amended exactness theorem applied to a concrete run
(limit 2, window 100, calls at 1000, 1001, 1150, interval `(999, 1099]`). -/
theorem c1_witness :
    (((memAllowedTimes ⟨2, 100⟩ [] [1000, 1001, 1150]).countP
        (fun t => decide (999 < t ∧ t ≤ 999 + 100)) : Nat) : Int) ≤ 2 ∧
    (((redisAllowedTimes ⟨2, 100⟩ { members := ∅, ttlMs := none } [1000, 1001, 1150]).countP
        (fun t => decide (999 < t ∧ t ≤ 999 + 100)) : Nat) : Int) ≤ 2 :=
  ⟨(c1_window_exactness ⟨2, 100⟩ (by decide) (by decide) [1000, 1001, 1150] 999).1 (by decide),
   (c1_window_exactness ⟨2, 100⟩ (by decide) (by decide) [1000, 1001, 1150] 999).2 (by decide)⟩

/-- C2: the memory engine's `Allow`, on an identifier stored with an
ascending timestamp sequence, computes `boundary = now - window`, drops
exactly the longest prefix of timestamps `≤ boundary` (`memStepSpec` is
written with `dropWhile`, straight from the spec's words), then appends
`now` and returns `(true, limit - len(updated))` when the retained length is
below the limit, and otherwise stores the pruned, unappended sequence and
returns `(false, 0)`; the resulting map update is exactly the spec-side
step's output. -/
theorem c2_memory_allow_matches_spec (ctx : Context) (cfg : Config) (now : Int)
    (store : Store) (identifier : String) (l : List Int)
    (hst : store identifier = some l) (_hsort : l.Sorted (· ≤ ·)) :
    memoryAllow ctx cfg now store identifier =
      (((memStepSpec cfg now l).1, (memStepSpec cfg now l).2.1, none),
        storeUpdate store identifier (memStepSpec cfg now l).2.2) := by
  unfold memoryAllow
  rw [hst]
  dsimp only
  rw [memStep_eq_memStepSpec]
  rfl

/-- C2 witness: concrete blocked-free instance — limit 2, window 100,
stored ascending sequence `[900, 950]`, call at 1000. -/
theorem c2_witness :
    memoryAllow ⟨none⟩ ⟨2, 100⟩ 1000
        (fun k => if k = "user" then some [900, 950] else none) "user" =
      (((memStepSpec ⟨2, 100⟩ 1000 [900, 950]).1,
        (memStepSpec ⟨2, 100⟩ 1000 [900, 950]).2.1, none),
        storeUpdate (fun k => if k = "user" then some [900, 950] else none) "user"
          (memStepSpec ⟨2, 100⟩ 1000 [900, 950]).2.2) :=
  c2_memory_allow_matches_spec ⟨none⟩ ⟨2, 100⟩ 1000
    (fun k => if k = "user" then some [900, 950] else none) "user" [900, 950]
    (by simp) (by decide)

/-- C3: the atomic remote operation (the Lua script) performs exactly the
specified sequence — remove every member with score in
`[0, now - windowMillis]`, count the survivors, and either record `now`,
reset the TTL to `windowMillis` and return `(1, limit - count - 1)`, or
return `(0, 0)` with only the prune persisted.  `atomicOpSpec` is written
from the claim's words; the two agree on every input. -/
theorem c3_script_matches_spec (key : ZSet) (now windowMillis limit : Int) :
    slidingWindowScript key now windowMillis limit =
      atomicOpSpec key now windowMillis limit := by
  unfold slidingWindowScript atomicOpSpec zremRangeByScore
  have hfilter : key.members.filter (fun t => ¬(0 ≤ t ∧ t ≤ now - windowMillis)) =
      key.members.filter (fun t => t < 0 ∨ now - windowMillis < t) := by
    apply Finset.filter_congr
    intro x _
    constructor
    · intro h
      omega
    · intro h
      omega
  dsimp only
  rw [hfilter]

/-- C4: blocked calls consume no quota.  On either engine, whenever `Allow`
reports `allowed = false` it also reports `remaining = 0`, stores only the
pruned state (nothing appended/added), removes only expired entries, and
leaves the count of valid (in-window) entries unchanged. -/
theorem c4_blocked_consumes_no_quota (ctx : Context) (cfg : Config) (now : Int)
    (store : Store) (identifier : String) (terr : Option String) (key : ZSet) :
    ((memoryAllow ctx cfg now store identifier).1.1 = false →
      (memoryAllow ctx cfg now store identifier).1.2.1 = 0 ∧
      (memoryAllow ctx cfg now store identifier).2 identifier =
        some (memPrune (now - cfg.windowMs) ((store identifier).getD [])) ∧
      (memPrune (now - cfg.windowMs) ((store identifier).getD [])).countP
          (fun t => decide (now - cfg.windowMs < t)) =
        ((store identifier).getD []).countP (fun t => decide (now - cfg.windowMs < t)) ∧
      List.Sublist (memPrune (now - cfg.windowMs) ((store identifier).getD []))
        ((store identifier).getD [])) ∧
    ((redisAllow terr cfg now key).1.1 = false →
      (redisAllow terr cfg now key).1.2.1 = 0 ∧
      (redisAllow terr cfg now key).2.members.filter (fun t => now - cfg.windowMs < t) =
        key.members.filter (fun t => now - cfg.windowMs < t) ∧
      (redisAllow terr cfg now key).2.members ⊆ key.members) := by
  constructor
  · intro hblocked
    have hb : (memStep cfg now ((store identifier).getD [])).1 = false := hblocked
    by_cases hc : ((memPrune (now - cfg.windowMs) ((store identifier).getD [])).length : Int) <
        cfg.limit
    · rw [memStep_allowed hc] at hb
      exact absurd hb (by simp)
    · refine ⟨?_, ?_, countP_memPrune _ _, memPrune_sublist _ _⟩
      · show (memStep cfg now ((store identifier).getD [])).2.1 = 0
        rw [memStep_blocked hc]
      · show storeUpdate store identifier
            (memStep cfg now ((store identifier).getD [])).2.2 identifier = _
        rw [memStep_blocked hc]
        simp [storeUpdate]
  · intro hblocked
    cases terr with
    | some e =>
      exact ⟨rfl, rfl, fun x hx => hx⟩
    | none =>
      by_cases hc : ((zremRangeByScore key.members 0 (now - cfg.windowMs)).card : Int) <
          cfg.limit
      · have : (redisAllow none cfg now key).1.1 = true := by
          simp [redisAllow, script_allowed key hc]
        rw [this] at hblocked
        exact absurd hblocked (by simp)
      · have h2 : (redisAllow none cfg now key).2 =
            { members := zremRangeByScore key.members 0 (now - cfg.windowMs),
              ttlMs := key.ttlMs } := by
          simp [redisAllow, script_blocked key hc]
        have h1 : (redisAllow none cfg now key).1.2.1 = 0 := by
          simp [redisAllow, script_blocked key hc]
        refine ⟨h1, ?_, ?_⟩
        · rw [h2]
          show (zremRangeByScore key.members 0 (now - cfg.windowMs)).filter
              (fun t => now - cfg.windowMs < t) = _
          unfold zremRangeByScore
          rw [Finset.filter_filter]
          apply Finset.filter_congr
          intro x _
          constructor
          · intro h
            exact h.2
          · intro h
            exact ⟨by omega, h⟩
        · rw [h2]
          exact Finset.filter_subset _ _

/-- C4 witness: a blocked call on each engine — limit 1, window 100, call at
1000 with a valid entry at 950 already recorded. -/
theorem c4_witness :
    ((memoryAllow ⟨none⟩ ⟨1, 100⟩ 1000 (fun k => if k = "u" then some [950] else none)
        "u").1.2.1 = 0 ∧
      (memoryAllow ⟨none⟩ ⟨1, 100⟩ 1000 (fun k => if k = "u" then some [950] else none)
          "u").2 "u" =
        some (memPrune (1000 - 100)
          (((fun k => if k = "u" then some [950] else none : Store) "u").getD [])) ∧
      (memPrune (1000 - 100)
          (((fun k => if k = "u" then some [950] else none : Store) "u").getD [])).countP
          (fun t => decide (1000 - 100 < t)) =
        ((((fun k => if k = "u" then some [950] else none : Store) "u").getD [])).countP
          (fun t => decide (1000 - 100 < t)) ∧
      List.Sublist
        (memPrune (1000 - 100)
          (((fun k => if k = "u" then some [950] else none : Store) "u").getD []))
        (((fun k => if k = "u" then some [950] else none : Store) "u").getD [])) ∧
    ((redisAllow none ⟨1, 100⟩ 1000 { members := {950}, ttlMs := none }).1.2.1 = 0 ∧
      (redisAllow none ⟨1, 100⟩ 1000
          { members := {950}, ttlMs := none }).2.members.filter
          (fun t => 1000 - 100 < t) =
        ({950} : Finset Int).filter (fun t => 1000 - 100 < t) ∧
      (redisAllow none ⟨1, 100⟩ 1000
          { members := {950}, ttlMs := none }).2.members ⊆ ({950} : Finset Int)) :=
  ⟨(c4_blocked_consumes_no_quota ⟨none⟩ ⟨1, 100⟩ 1000
      (fun k => if k = "u" then some [950] else none) "u" none
      { members := {950}, ttlMs := none }).1 (by decide),
   (c4_blocked_consumes_no_quota ⟨none⟩ ⟨1, 100⟩ 1000
      (fun k => if k = "u" then some [950] else none) "u" none
      { members := {950}, ttlMs := none }).2 (by decide)⟩

/-- C6: a limiter constructed with `limit = 0` never allows: on either
engine every `Allow` call returns `allowed = false` and `remaining = 0`, for
every identifier and every stored state. -/
theorem c6_limit_zero_never_allows (cfg : Config) (hl : cfg.limit = 0)
    (ctx : Context) (now : Int) (store : Store) (identifier : String)
    (terr : Option String) (key : ZSet) :
    (memoryAllow ctx cfg now store identifier).1.1 = false ∧
    (memoryAllow ctx cfg now store identifier).1.2.1 = 0 ∧
    (redisAllow terr cfg now key).1.1 = false ∧
    (redisAllow terr cfg now key).1.2.1 = 0 := by
  have hmem : memStep cfg now ((store identifier).getD []) =
      (false, 0, memPrune (now - cfg.windowMs) ((store identifier).getD [])) := by
    apply memStep_blocked
    rw [hl]
    exact not_lt.mpr (Int.natCast_nonneg _)
  have hredis : (redisAllow terr cfg now key).1.1 = false ∧
      (redisAllow terr cfg now key).1.2.1 = 0 := by
    cases terr with
    | some e => exact ⟨rfl, rfl⟩
    | none =>
      have hb := script_blocked key
        (show ¬((zremRangeByScore key.members 0 (now - cfg.windowMs)).card : Int) < cfg.limit
          by rw [hl]; exact not_lt.mpr (Int.natCast_nonneg _))
      constructor
      · simp [redisAllow, hb]
      · simp [redisAllow, hb]
  refine ⟨?_, ?_, hredis.1, hredis.2⟩
  · show (memStep cfg now ((store identifier).getD [])).1 = false
    rw [hmem]
  · show (memStep cfg now ((store identifier).getD [])).2.1 = 0
    rw [hmem]

/-- C6 witness: limit 0 blocks a concrete call on both engines. -/
theorem c6_witness :
    (memoryAllow ⟨none⟩ ⟨0, 100⟩ 1000 (fun _ => none) "x").1.1 = false ∧
    (memoryAllow ⟨none⟩ ⟨0, 100⟩ 1000 (fun _ => none) "x").1.2.1 = 0 ∧
    (redisAllow none ⟨0, 100⟩ 1000 { members := ∅, ttlMs := none }).1.1 = false ∧
    (redisAllow none ⟨0, 100⟩ 1000 { members := ∅, ttlMs := none }).1.2.1 = 0 :=
  c6_limit_zero_never_allows ⟨0, 100⟩ rfl ⟨none⟩ 1000 (fun _ => none) "x" none
    { members := ∅, ttlMs := none }

/-- C7: distributed-engine error discipline.  `Allow` returns a nil error
exactly when the remote operation succeeded; a transport/execution failure
is surfaced verbatim as a non-nil error with the key unmutated (and with
`allowed = false, remaining = 0` only as the zero value accompanying the
error); and under a nil error, "blocked" is reported exactly when the atomic
script returned 0 — an error is never how a blocked outcome is signalled. -/
theorem c7_error_discipline (terr : Option String) (cfg : Config) (now : Int) (key : ZSet) :
    ((redisAllow terr cfg now key).1.2.2 = none ↔ terr = none) ∧
    (∀ e, terr = some e → redisAllow terr cfg now key = ((false, 0, some e), key)) ∧
    (terr = none →
      ((redisAllow terr cfg now key).1.1 = false ↔
        (slidingWindowScript key now cfg.windowMs cfg.limit).1.1 = 0)) := by
  cases terr with
  | some e =>
    refine ⟨by simp [redisAllow], ?_, ?_⟩
    · intro e' he
      rw [← he]
      rfl
    · intro h
      exact absurd h (by simp)
  | none =>
    refine ⟨by simp [redisAllow], ?_, ?_⟩
    · intro e he
      exact absurd he (by simp)
    · intro _
      by_cases hc : ((zremRangeByScore key.members 0 (now - cfg.windowMs)).card : Int) <
          cfg.limit
      · simp [redisAllow, script_allowed key hc]
      · simp [redisAllow, script_blocked key hc]

/-- C7 witness: a failed call surfaces its error with the key untouched, and
a successful call reports blocked exactly as the script's 0 reply. -/
theorem c7_witness :
    redisAllow (some "dial tcp: connection refused") ⟨2, 100⟩ 1000
        { members := ∅, ttlMs := none } =
      ((false, 0, some "dial tcp: connection refused"), { members := ∅, ttlMs := none }) ∧
    ((redisAllow none ⟨2, 100⟩ 1000 { members := ∅, ttlMs := none }).1.1 = false ↔
      (slidingWindowScript { members := ∅, ttlMs := none } 1000 100 2).1.1 = 0) :=
  ⟨(c7_error_discipline (some "dial tcp: connection refused") ⟨2, 100⟩ 1000
      { members := ∅, ttlMs := none }).2.1 "dial tcp: connection refused" rfl,
   (c7_error_discipline none ⟨2, 100⟩ 1000 { members := ∅, ttlMs := none }).2.2 rfl⟩

/-- C5, counterexample to the claim as stated: on the distributed engine,
three calls sharing the same `now` (limit 2) return
`(true,1), (true,0), (true,0)` — the third call is allowed again, not
`(false,0)`, because `ZADD key now now` coalesces the duplicate member and
`ZCARD` stays at 1. -/
theorem c5_counterexample :
    redisRunResults ⟨2, 100⟩ { members := ∅, ttlMs := none } [1000, 1000, 1000] =
      [(true, 1), (true, 0), (true, 0)] ∧
    ((true, (0 : Int)) : Bool × Int) ≠ ((false, 0) : Bool × Int) := by
  constructor
  · decide
  · decide

/-- C5 (amended): monotone remaining.  On the memory engine, starting from
an empty log, `k` calls sharing one `now` return `(true, limit - i - 1)` for
the i-th call while `i < limit` and `(false, 0)` from the limit-th call on —
in particular, with limit 2 three immediate calls return
`(true,1), (true,0), (false,0)`.  On the distributed engine the same
remaining-countdown holds provided the calls happen at strictly increasing
instants that all lie within one window of each other (no prune and no
duplicate-member coalescing). -/
theorem c5_monotone_remaining (cfg : Config) (hW : 0 < cfg.windowMs) :
    (∀ (now : Int) (k : Nat),
      memRunResults cfg [] (List.replicate k now) =
        (List.range k).map (fun (i : Nat) =>
          if (i : Int) < cfg.limit then (true, cfg.limit - (i : Int) - 1) else (false, 0))) ∧
    (∀ (nows : List Int), nows.Sorted (· < ·) →
      (∀ x ∈ nows, ∀ y ∈ nows, y - cfg.windowMs < x) →
      redisRunResults cfg { members := ∅, ttlMs := none } nows =
        (List.range nows.length).map (fun (i : Nat) =>
          if (i : Int) < cfg.limit then (true, cfg.limit - (i : Int) - 1) else (false, 0))) ∧
    memRunResults ⟨2, 100⟩ [] [1000, 1000, 1000] = [(true, 1), (true, 0), (false, 0)] := by
  refine ⟨?_, ?_, by decide⟩
  · intro now k
    have h := memRunResults_replicate cfg hW now k 0
    simp only [List.replicate_zero, Nat.zero_add] at h
    exact h
  · intro nows hsort hspan
    have h := redisRunResults_no_prune cfg nows [] none List.nodup_nil (by simp) hsort hspan
    simp only [List.toFinset_nil, List.length_nil, Nat.zero_add] at h
    exact h

/-- C5 witness: the amended theorem at limit 2 — three same-instant calls on
the memory engine and three strictly increasing in-window calls on the
distributed engine. -/
theorem c5_witness :
    memRunResults ⟨2, 100⟩ [] (List.replicate 3 1000) =
      (List.range 3).map (fun (i : Nat) =>
        if (i : Int) < 2 then (true, 2 - (i : Int) - 1) else (false, 0)) ∧
    redisRunResults ⟨2, 100⟩ { members := ∅, ttlMs := none } [1000, 1001, 1002] =
      (List.range ([1000, 1001, 1002] : List Int).length).map (fun (i : Nat) =>
        if (i : Int) < 2 then (true, 2 - (i : Int) - 1) else (false, 0)) :=
  ⟨(c5_monotone_remaining ⟨2, 100⟩ (by decide)).1 1000 3,
   (c5_monotone_remaining ⟨2, 100⟩ (by decide)).2.1 [1000, 1001, 1002]
     (by decide) (by decide)⟩

/-- C8, counterexample to the claim as stated: `Close` on the memory engine
is not idempotent-safe.  The first call succeeds (here with the worker
exiting before the deadline), but it closes `stopCh`; a second call executes
`close(m.stopCh)` on an already-closed channel and the Go runtime panics. -/
theorem c8_counterexample :
    memoryClose { stopChClosed := false } true "context deadline exceeded" =
      Except.ok (none, { stopChClosed := true }) ∧
    memoryClose { stopChClosed := true } true "context deadline exceeded" =
      Except.error "close of closed channel" :=
  ⟨rfl, rfl⟩

/-- C8 (amended): `Close` is safe to call once.  On the memory engine a
first call returns nil when the background worker exits before the
caller-supplied deadline and returns the deadline error otherwise (a second
call panics, see the counterexample); on the distributed engine `Close`
always returns nil. -/
theorem c8_close_contract (workerExitsFirst : Bool) (ctxErr : String) (ctx : Context) :
    memoryClose { stopChClosed := false } workerExitsFirst ctxErr =
      Except.ok ((if workerExitsFirst then none else some ctxErr),
        { stopChClosed := true }) ∧
    redisClose ctx = none := by
  constructor
  · cases workerExitsFirst <;> rfl
  · rfl

/-- C9 (implicit): the memory engine's `Allow` never returns a non-nil
error — the error component is `none` in both branches — and its whole
outcome is independent of the context argument, which the body ignores. -/
theorem c9_memory_allow_no_error (ctx ctx' : Context) (cfg : Config) (now : Int)
    (store : Store) (identifier : String) :
    (memoryAllow ctx cfg now store identifier).1.2.2 = none ∧
    memoryAllow ctx cfg now store identifier = memoryAllow ctx' cfg now store identifier :=
  ⟨rfl, rfl⟩

/-- C10 (implicit): a blocked memory-engine `Allow` for an identifier absent
from the store — which happens exactly when `limit ≤ 0` — still writes the
identifier into the map, mapped to the empty sequence; the reclamation pass
deletes every identifier mapped to an empty sequence. -/
theorem c10_blocked_call_creates_entry (ctx : Context) (cfg : Config) (now : Int)
    (store : Store) (identifier : String) (habs : store identifier = none) :
    ((memoryAllow ctx cfg now store identifier).1.1 = false ↔ cfg.limit ≤ 0) ∧
    (cfg.limit ≤ 0 → (memoryAllow ctx cfg now store identifier).2 identifier = some []) ∧
    (∀ (now2 : Int) (store2 : Store) (id2 : String), store2 id2 = some [] →
      cleanupPass cfg now2 store2 id2 = none) := by
  have hts : (store identifier).getD [] = ([] : List Int) := by rw [habs]; rfl
  have hpr : memPrune (now - cfg.windowMs) ((store identifier).getD []) = [] := by
    rw [hts]
    rfl
  have hlen : ((memPrune (now - cfg.windowMs) ((store identifier).getD [])).length : Int) = 0 := by
    rw [hpr]
    rfl
  refine ⟨⟨?_, ?_⟩, ?_, ?_⟩
  · intro hblocked
    by_contra hpos
    rw [not_le] at hpos
    have hc : ((memPrune (now - cfg.windowMs) ((store identifier).getD [])).length : Int) <
        cfg.limit := by omega
    have h1 : (memoryAllow ctx cfg now store identifier).1.1 = true := by
      show (memStep cfg now ((store identifier).getD [])).1 = true
      rw [memStep_allowed hc]
    rw [h1] at hblocked
    exact absurd hblocked (by simp)
  · intro hle
    have hc : ¬((memPrune (now - cfg.windowMs) ((store identifier).getD [])).length : Int) <
        cfg.limit := by omega
    show (memStep cfg now ((store identifier).getD [])).1 = false
    rw [memStep_blocked hc]
  · intro hle
    have hc : ¬((memPrune (now - cfg.windowMs) ((store identifier).getD [])).length : Int) <
        cfg.limit := by omega
    show storeUpdate store identifier
        (memStep cfg now ((store identifier).getD [])).2.2 identifier = some []
    rw [memStep_blocked hc]
    simp [storeUpdate, hpr]
  · intro now2 store2 id2 h2
    show cleanupPass cfg now2 store2 id2 = none
    unfold cleanupPass
    rw [h2]
    rfl

/-- C10 witness: with limit 0 a call for an absent identifier is blocked yet
creates an empty map entry, and the reclamation pass removes an identifier
mapped to the empty sequence. -/
theorem c10_witness :
    ((memoryAllow ⟨none⟩ ⟨0, 100⟩ 1000 (fun _ => none) "a").1.1 = false ↔ (0 : Int) ≤ 0) ∧
    ((memoryAllow ⟨none⟩ ⟨0, 100⟩ 1000 (fun _ => none) "a").2 "a" = some []) ∧
    cleanupPass ⟨0, 100⟩ 1200 (fun k => if k = "b" then some [] else none) "b" = none :=
  ⟨(c10_blocked_call_creates_entry ⟨none⟩ ⟨0, 100⟩ 1000 (fun _ => none) "a" rfl).1,
   (c10_blocked_call_creates_entry ⟨none⟩ ⟨0, 100⟩ 1000 (fun _ => none) "a" rfl).2.1
     (by decide),
   (c10_blocked_call_creates_entry ⟨none⟩ ⟨0, 100⟩ 1000 (fun _ => none) "a" rfl).2.2 1200
     (fun k => if k = "b" then some [] else none) "b" (by simp)⟩

end Shield
